import Mathlib

/-!
Verification of the RustVault key–value store (protocol codec, write-ahead
log, and WAL-backed memory store) against its design specification.

Byte strings are modelled as `List Char`, one `Char` per byte (all inputs of
interest are ASCII at the framing level; the `str::from_utf8(..).unwrap_or("")`
decoding step of the source is the identity on these inputs and is modelled by
`List.asString`).
-/

namespace RustVault

/-- Commands supported by the protocol (protocol.rs, `enum Command`). -/
inductive Command where
  | Set (key value : String)
  | Get (key : String)
  | Delete (key : String)
deriving DecidableEq, Repr

/-- Response variants (protocol.rs, `enum Response`). -/
inductive Response where
  | Ok
  | Value (v : String)
  | NotFound
  | Error (e : String)
deriving DecidableEq, Repr

/-! Embedding of the nom combinators used by protocol.rs.  A parser takes the
input bytes and returns `none` (nom `Err`) or `some (remaining, value)`. -/

/-- Embedding of nom `tag(t)`: match the literal byte sequence `t` at the
front of the input, byte by byte. -/
def tagP : List Char → List Char → Option (List Char × List Char)
  | [], input => some (input, [])
  | _ :: _, [] => none
  | a :: ts, c :: cs =>
    if c = a then (tagP ts cs).map fun p => (p.1, a :: p.2) else none

/-- Embedding of nom `take_while1(p)`: longest non-empty run satisfying `p`. -/
def takeWhile1P (p : Char → Bool) (input : List Char) :
    Option (List Char × List Char) :=
  let taken := input.takeWhile p
  if taken.isEmpty then none else some (input.drop taken.length, taken)

/-- Bytes matched by nom `character::complete::space1` on byte input:
the space and tab characters. -/
def isNomSpace (c : Char) : Bool := c = ' ' || c = '\t'

/-- Embedding of nom `space1`: one or more spaces or tabs. -/
def space1P (input : List Char) : Option (List Char × List Char) :=
  takeWhile1P isNomSpace input

/-- Embedding of nom `bytes::complete::take_until(t)`: consume up to (not
including) the first occurrence of `t`; fail when `t` never occurs. -/
def takeUntilP (t : List Char) : List Char → Option (List Char × List Char)
  | [] => if t.isPrefixOf ([] : List Char) then some ([], []) else none
  | c :: rest =>
    if t.isPrefixOf (c :: rest) then some (c :: rest, [])
    else (takeUntilP t rest).map fun p => (p.1, c :: p.2)

/-- Parse SET command: `SET <key> <value>` (protocol.rs `set_command`).
The key is one or more bytes that are not space, CR or LF; the value is
everything up to the first `\r\n` in the remaining input. -/
def set_command (input : List Char) : Option (List Char × Command) := do
  let (r1, _) ← tagP "SET".toList input
  let (r2, _) ← space1P r1
  let (r3, keyBytes) ← takeWhile1P
      (fun c => c ≠ ' ' && c ≠ '\r' && c ≠ '\n') r2
  let (r4, _) ← space1P r3
  let (r5, valueBytes) ← takeUntilP ['\r', '\n'] r4
  pure (r5, Command.Set keyBytes.asString valueBytes.asString)

/-- Parse GET command: `GET <key>` (protocol.rs `get_command`). -/
def get_command (input : List Char) : Option (List Char × Command) := do
  let (r1, _) ← tagP "GET".toList input
  let (r2, _) ← space1P r1
  let (r3, keyBytes) ← takeWhile1P
      (fun c => c ≠ ' ' && c ≠ '\r' && c ≠ '\n') r2
  pure (r3, Command.Get keyBytes.asString)

/-- Parse DELETE command: `DELETE <key>` (protocol.rs `delete_command`). -/
def delete_command (input : List Char) : Option (List Char × Command) := do
  let (r1, _) ← tagP "DELETE".toList input
  let (r2, _) ← space1P r1
  let (r3, keyBytes) ← takeWhile1P
      (fun c => c ≠ ' ' && c ≠ '\r' && c ≠ '\n') r2
  pure (r3, Command.Delete keyBytes.asString)

/-- Main command parse step (protocol.rs `command_parser`):
`terminated(alt((set, get, delete)), alt((tag("\r\n"), tag("\n"))))`. -/
def commandParse (input : List Char) : Option (List Char × Command) := do
  let (r, cmd) ←
    (set_command input).orElse fun _ =>
      (get_command input).orElse fun _ => delete_command input
  let (r2, _) ← (tagP ['\r', '\n'] r).orElse fun _ => tagP ['\n'] r
  pure (r2, cmd)

/-- Top-level parse (protocol.rs `parse_command`): run `command_parser`,
discard the unconsumed remainder; `none` stands for the `ParseError`
(`RustVaultError::Protocol`) result. -/
def parse_command (input : List Char) : Option Command :=
  (commandParse input).map Prod.snd

/-- Serialize a response to wire bytes (protocol.rs `Response::to_bytes`). -/
def Response.to_bytes : Response → List Char
  | Response.Ok => "OK\r\n".toList
  | Response.Value v => "VALUE ".toList ++ v.toList ++ "\r\n".toList
  | Response.NotFound => "NOT_FOUND\r\n".toList
  | Response.Error e => "ERROR ".toList ++ e.toList ++ "\r\n".toList

/-! Client-side response handling (client.rs). -/

/-- Characters with the Unicode White_Space property, as tested by Rust's
`char::is_whitespace` (used by `str::trim`). -/
def isRustWhitespace (c : Char) : Bool :=
  c.toNat = 0x9 || c.toNat = 0xA || c.toNat = 0xB || c.toNat = 0xC ||
  c.toNat = 0xD || c.toNat = 0x20 || c.toNat = 0x85 || c.toNat = 0xA0 ||
  c.toNat = 0x1680 || (0x2000 ≤ c.toNat && c.toNat ≤ 0x200A) ||
  c.toNat = 0x2028 || c.toNat = 0x2029 || c.toNat = 0x202F ||
  c.toNat = 0x205F || c.toNat = 0x3000

/-- Embedding of Rust `str::trim`: strip leading and trailing whitespace. -/
def rustTrim (l : List Char) : List Char :=
  ((l.dropWhile isRustWhitespace).reverse.dropWhile isRustWhitespace).reverse

/-- Embedding of `read_line`: the prefix of the stream up to and including
the first `\n`, or the whole stream when it holds no `\n`
(client.rs `send_command` reads exactly one line). -/
def readLine : List Char → List Char
  | [] => []
  | c :: rest => if c = '\n' then [c] else c :: readLine rest

/-- Embedding of `Client::parse_response` (client.rs): classify the trimmed
response line; `none` stands for the `Unknown response format` error. -/
def parse_response (response : List Char) : Option Response :=
  if response = "OK".toList then some Response.Ok
  else if response = "NOT_FOUND".toList then some Response.NotFound
  else if "VALUE ".toList.isPrefixOf response then
    some (Response.Value (response.drop 6).asString)
  else if "ERROR ".toList.isPrefixOf response then
    some (Response.Error (response.drop 6).asString)
  else none

/-- The client-side processing of one serialized response: read one line off
the byte stream, trim it, and parse it (client.rs `send_command` followed by
`parse_response`). -/
def clientRoundTrip (r : Response) : Option Response :=
  parse_response (rustTrim (readLine r.to_bytes))

/-! Write-ahead log (wal.rs).  A WAL entry couples a millisecond timestamp
with a command; on disk an entry is one line of JSON produced by
`serde_json::to_string`. -/

/-- WAL entry (wal.rs `struct WalEntry`); `u64` timestamps are modelled as
`Nat` (replay never inspects them). -/
structure WalEntry where
  timestamp : Nat
  command : Command
deriving DecidableEq, Repr

/-- Fuelled producer of the decimal digits of a natural number, most
significant first (the shape of core `Nat.toDigitsCore`). -/
def natDigitsAux : Nat → Nat → List Char → List Char
  | 0, _, ds => ds
  | fuel + 1, n, ds =>
    if n < 10 then Nat.digitChar n :: ds
    else natDigitsAux fuel (n / 10) (Nat.digitChar (n % 10) :: ds)

/-- Decimal digits of a natural number, most significant first.  Models the
integer formatting used by `serde_json` for `u64` fields. -/
def natDigits (n : Nat) : List Char := natDigitsAux (n + 1) n []

/-- Modelled from `serde_json`: the escaping of one character inside a JSON
string literal (`to_string`): quote and backslash get two-character escapes,
the five named control characters get letter escapes, all other control
characters get a lowercase `\u00xx` escape, and every other character is
emitted verbatim. -/
def escapeChar (c : Char) : List Char :=
  if c = '"' then ['\\', '"']
  else if c = '\\' then ['\\', '\\']
  else if c = '\x08' then ['\\', 'b']
  else if c = '\t' then ['\\', 't']
  else if c = '\n' then ['\\', 'n']
  else if c = '\x0c' then ['\\', 'f']
  else if c = '\r' then ['\\', 'r']
  else if c.toNat < 0x20 then
    ['\\', 'u', '0', '0', Nat.digitChar (c.toNat / 16), Nat.digitChar (c.toNat % 16)]
  else [c]

/-- Escaped body of a JSON string literal. -/
def escapeString (s : String) : List Char := (s.toList.map escapeChar).flatten

/-- A complete JSON string literal, quotes included. -/
def jsonString (s : String) : List Char := '"' :: (escapeString s ++ ['"'])

/-- Modelled from `serde_json::to_string` for `Command` (externally tagged
enum, struct fields in declaration order, no added whitespace). -/
def serializeCommand : Command → List Char
  | Command.Set k v =>
    "\x7b\"Set\":\x7b\"key\":".toList ++ jsonString k ++
      ",\"value\":".toList ++ jsonString v ++ "\x7d\x7d".toList
  | Command.Get k =>
    "\x7b\"Get\":\x7b\"key\":".toList ++ jsonString k ++ "\x7d\x7d".toList
  | Command.Delete k =>
    "\x7b\"Delete\":\x7b\"key\":".toList ++ jsonString k ++ "\x7d\x7d".toList

/-- Modelled from `serde_json::to_string` for `WalEntry`: the exact line of
JSON that `WriteAheadLog::write_entry` appends (before the trailing `\n`
added by `writeln!`). -/
def serializeEntry (e : WalEntry) : List Char :=
  "\x7b\"timestamp\":".toList ++ natDigits e.timestamp ++
    ",\"command\":".toList ++ serializeCommand e.command ++ "\x7d".toList

/-! A parser for the canonical JSON texts above, modelling
`serde_json::from_str::<WalEntry>`.  It accepts exactly the texts produced by
`serializeEntry` (the only texts this repository ever writes) and fails on
everything else; in particular it fails on every proper prefix of a canonical
text, as `from_str` does (unexpected end of input / trailing characters). -/

/-- Consume an expected literal token. -/
def expectTok : List Char → List Char → Option (List Char)
  | [], input => some input
  | _ :: _, [] => none
  | t :: ts, c :: cs => if c = t then expectTok ts cs else none

/-- Value of a hexadecimal digit. -/
def hexVal (c : Char) : Option Nat :=
  if '0' ≤ c ∧ c ≤ '9' then some (c.toNat - 48)
  else if 'a' ≤ c ∧ c ≤ 'f' then some (c.toNat - 87)
  else if 'A' ≤ c ∧ c ≤ 'F' then some (c.toNat - 55)
  else none

/-- Decoded character of a single-letter escape sequence, when legal. -/
def unescapeChar (e : Char) : Option Char :=
  if e = '"' then some '"'
  else if e = '\\' then some '\\'
  else if e = '/' then some '/'
  else if e = 'b' then some '\x08'
  else if e = 'f' then some '\x0c'
  else if e = 'n' then some '\n'
  else if e = 'r' then some '\r'
  else if e = 't' then some '\t'
  else none

/-- Body of a JSON string literal after the opening quote: returns the
decoded characters and the input following the closing quote.  Raw control
characters are rejected, as in JSON. -/
def parseStringBody : List Char → Option (List Char × List Char)
  | [] => none
  | c :: rest =>
    if c = '"' then some ([], rest)
    else if c = '\\' then
      match rest with
      | [] => none
      | e :: r =>
        if e = 'u' then
          match r with
          | h1 :: h2 :: h3 :: h4 :: r2 => do
            let d1 ← hexVal h1
            let d2 ← hexVal h2
            let d3 ← hexVal h3
            let d4 ← hexVal h4
            (parseStringBody r2).map fun p =>
              (Char.ofNat (((d1 * 16 + d2) * 16 + d3) * 16 + d4) :: p.1, p.2)
          | _ => none
        else
          match unescapeChar e with
          | none => none
          | some d => (parseStringBody r).map fun p => (d :: p.1, p.2)
    else if c.toNat < 0x20 then none
    else (parseStringBody rest).map fun p => (c :: p.1, p.2)

/-- A JSON string literal, opening quote included. -/
def parseJsonString (input : List Char) : Option (String × List Char) := do
  let r ← expectTok ['"'] input
  let (content, rest) ← parseStringBody r
  pure (content.asString, rest)

/-- A JSON unsigned integer: a non-empty run of decimal digits. -/
def parseNat (input : List Char) : Option (Nat × List Char) :=
  let digits := input.takeWhile Char.isDigit
  if digits.isEmpty then none
  else
    some (digits.foldl (fun acc c => 10 * acc + (c.toNat - 48)) 0,
      input.drop digits.length)

/-- The canonical JSON form of a `Command`. -/
def parseCommandJson (input : List Char) : Option (Command × List Char) :=
  match expectTok "\x7b\"Set\":\x7b\"key\":".toList input with
  | some r => do
    let (k, r1) ← parseJsonString r
    let r2 ← expectTok ",\"value\":".toList r1
    let (v, r3) ← parseJsonString r2
    let r4 ← expectTok "\x7d\x7d".toList r3
    pure (Command.Set k v, r4)
  | none =>
    match expectTok "\x7b\"Get\":\x7b\"key\":".toList input with
    | some r => do
      let (k, r1) ← parseJsonString r
      let r2 ← expectTok "\x7d\x7d".toList r1
      pure (Command.Get k, r2)
    | none => do
      let r ← expectTok "\x7b\"Delete\":\x7b\"key\":".toList input
      let (k, r1) ← parseJsonString r
      let r2 ← expectTok "\x7d\x7d".toList r1
      pure (Command.Delete k, r2)

/-- The canonical JSON form of a `WalEntry`. -/
def parseEntryJson (input : List Char) : Option (WalEntry × List Char) := do
  let r ← expectTok "\x7b\"timestamp\":".toList input
  let (t, r1) ← parseNat r
  let r2 ← expectTok ",\"command\":".toList r1
  let (c, r3) ← parseCommandJson r2
  let r4 ← expectTok "\x7d".toList r3
  pure (WalEntry.mk t c, r4)

/-- Modelled from `serde_json::from_str::<WalEntry>` applied to one WAL line
(wal.rs `replay`): the whole line must parse, with nothing left over. -/
def parseWalLine (l : List Char) : Option WalEntry :=
  match parseEntryJson l with
  | some (e, []) => some e
  | _ => none

/-! Reading the WAL file back (wal.rs `replay` and store.rs
`restore_from_wal`). -/

/-- Split a byte stream at `\n` bytes, keeping a final fragment that lacks a
terminating `\n` (the iteration of `BufRead::lines`, before `\r` removal). -/
def linesRaw : List Char → List (List Char)
  | [] => []
  | c :: rest =>
    if c = '\n' then [] :: linesRaw rest
    else
      match linesRaw rest with
      | [] => [[c]]
      | l :: ls => (c :: l) :: ls

/-- Remove one trailing `\r`, as `BufRead::lines` does for `\r\n` endings. -/
def stripTrailingCR (l : List Char) : List Char :=
  if l.getLast? = some '\r' then l.dropLast else l

/-- The lines of a file as produced by `BufRead::lines` (all `io::Result`
values `Ok`, since the model has no I/O failures). -/
def linesOf (l : List Char) : List (List Char) := (linesRaw l).map stripTrailingCR

/-- Keyspaces: the semantic content of the `HashMap<String, String>`. -/
abbrev KS := String → Option String

/-- The empty keyspace. -/
def emptyKS : KS := fun _ => none

/-- Semantics of `HashMap::insert`. -/
def ksInsert (key value : String) (m : KS) : KS :=
  fun q => if q = key then some value else m q

/-- Semantics of `HashMap::remove`. -/
def ksRemove (key : String) (m : KS) : KS :=
  fun q => if q = key then none else m q

/-- The replay callback of store.rs `restore_from_wal`: `Set` inserts,
`Delete` removes, `Get` is skipped. -/
def applyReplay (m : KS) : Command → KS
  | Command.Set k v => ksInsert k v m
  | Command.Delete k => ksRemove k m
  | Command.Get _ => m

/-- The line loop of wal.rs `replay`: blank lines (after `trim`) are
skipped, a line that fails to parse aborts the whole replay with an error,
and each parsed entry is fed to the callback. -/
def replayLines : KS → List (List Char) → Except Unit KS
  | m, [] => Except.ok m
  | m, l :: ls =>
    if (rustTrim l).isEmpty then replayLines m ls
    else
      match parseWalLine l with
      | none => Except.error ()
      | some e => replayLines (applyReplay m e.command) ls

/-- Restore a keyspace from the raw contents of a WAL file
(store.rs `restore_from_wal` over wal.rs `replay`); `Except.error` is the
startup failure that makes the server refuse to start. -/
def restore_from_wal (file : List Char) : Except Unit KS :=
  replayLines emptyKS (linesOf file)

/-! The WAL-backed in-memory store (store.rs `MemoryStore` built by
`MemoryStore::with_wal`).  The WAL is carried as its list of appended
entries; `fileOf` renders the file contents those appends produce. -/

/-- State of a WAL-backed `MemoryStore`: the in-memory map plus the entries
so far appended to its WAL. -/
structure MemoryStore where
  data : KS
  wal : List WalEntry

/-- The raw file contents produced by appending each entry as one
JSON line (wal.rs `write_entry`: `writeln!` of the serialized entry). -/
def fileOf (entries : List WalEntry) : List Char :=
  (entries.map fun e => serializeEntry e ++ ['\n']).flatten

/-- A fresh store with an empty WAL. -/
def MemoryStore.empty : MemoryStore := { data := emptyKS, wal := [] }

/-- One WAL append (wal.rs `write_entry`): `walOk` is the oracle for the
success of the underlying write-and-flush; on failure nothing is appended. -/
def walAppend (walOk : Bool) (e : WalEntry) (wal : List WalEntry) :
    Except Unit (List WalEntry) :=
  if walOk then Except.ok (wal ++ [e]) else Except.error ()

/-- store.rs `MemoryStore::set`: append a `Set` entry to the WAL (flushed)
first; only if that succeeds, update the in-memory map.  The returned store
is the state after the call. -/
def MemoryStore.set (walOk : Bool) (ts : Nat) (s : MemoryStore)
    (key value : String) : Except Unit Unit × MemoryStore :=
  match walAppend walOk (WalEntry.mk ts (Command.Set key value)) s.wal with
  | Except.error e => (Except.error e, s)
  | Except.ok wal2 =>
    (Except.ok (), { data := ksInsert key value s.data, wal := wal2 })

/-- store.rs `MemoryStore::get`: read-only lookup. -/
def MemoryStore.get (s : MemoryStore) (key : String) : Option String :=
  s.data key

/-- store.rs `MemoryStore::delete`: append a `Delete` entry to the WAL
unconditionally (before the presence of the key is ever examined); only if
that succeeds, remove the key, returning whether it was present. -/
def MemoryStore.delete (walOk : Bool) (ts : Nat) (s : MemoryStore)
    (key : String) : Except Unit Bool × MemoryStore :=
  match walAppend walOk (WalEntry.mk ts (Command.Delete key)) s.wal with
  | Except.error e => (Except.error e, s)
  | Except.ok wal2 =>
    (Except.ok (s.data key).isSome, { data := ksRemove key s.data, wal := wal2 })

/-- store.rs `MemoryStore::clear`: empty the map; the WAL is not touched. -/
def MemoryStore.clear (s : MemoryStore) : MemoryStore :=
  { data := emptyKS, wal := s.wal }

/-- An acknowledged mutation issued through the store, tagged with the
timestamp its WAL entry receives. -/
inductive Mutation where
  | set (ts : Nat) (key value : String)
  | delete (ts : Nat) (key : String)

/-- Apply one acknowledged mutation (WAL append succeeds: `walOk = true`). -/
def applyMutation (s : MemoryStore) : Mutation → MemoryStore
  | Mutation.set ts k v => (MemoryStore.set true ts s k v).2
  | Mutation.delete ts k => (MemoryStore.delete true ts s k).2

/-- The store state after a sequence of acknowledged mutations, starting
from a fresh store. -/
def runMutations (ms : List Mutation) : MemoryStore :=
  ms.foldl applyMutation MemoryStore.empty

/-- Whether the two-byte sequence `\r\n` occurs anywhere in a byte string:
exactly the condition under which nom `take_until("\r\n")` can stop early. -/
def containsCRLF : List Char → Bool
  | [] => false
  | c :: rest => (['\r', '\n'].isPrefixOf (c :: rest)) || containsCRLF rest

/-! Basic lemmas about the parsing combinators. -/

theorem asString_toList (s : String) : s.toList.asString = s := by
  cases s
  rfl

theorem tagP_append (t r : List Char) : tagP t (t ++ r) = some (r, t) := by
  induction t with
  | nil => rfl
  | cons a ts ih => simp [tagP, ih]

theorem takeWhile_append_cons (p : Char → Bool) (xs : List Char) (y : Char)
    (ys : List Char) (hxs : ∀ x ∈ xs, p x) (hy : p y = false) :
    (xs ++ y :: ys).takeWhile p = xs := by
  induction xs with
  | nil => simp [List.takeWhile_cons, hy]
  | cons a as ih =>
    have ha : p a := hxs a (by simp)
    simp only [List.cons_append, List.takeWhile_cons, ha, if_true]
    rw [ih (fun x hx => hxs x (by simp [hx]))]

theorem takeWhile1P_spec (p : Char → Bool) (xs : List Char) (y : Char)
    (ys : List Char) (hne : xs ≠ []) (hxs : ∀ x ∈ xs, p x) (hy : p y = false) :
    takeWhile1P p (xs ++ y :: ys) = some (y :: ys, xs) := by
  unfold takeWhile1P
  rw [takeWhile_append_cons p xs y ys hxs hy]
  have hxe : xs.isEmpty = false := by
    cases xs with
    | nil => exact absurd rfl hne
    | cons a as => rfl
  simp [hxe, List.drop_left]

theorem takeUntilP_crlf (v r : List Char) (hv : containsCRLF v = false) :
    takeUntilP ['\r', '\n'] (v ++ '\r' :: '\n' :: r) =
      some ('\r' :: '\n' :: r, v) := by
  induction v with
  | nil => simp [takeUntilP, List.isPrefixOf]
  | cons c v ih =>
    rw [containsCRLF, Bool.or_eq_false_iff] at hv
    have hpre : (['\r', '\n'].isPrefixOf (c :: (v ++ '\r' :: '\n' :: r))) = false := by
      cases v with
      | nil => simp [List.isPrefixOf]
      | cons d v2 =>
        have := hv.1
        simp only [List.isPrefixOf, List.cons_append] at this ⊢
        simpa using this
    rw [List.cons_append, takeUntilP]
    simp only [List.append_eq] at *
    rw [hpre]
    simp [ih hv.2]

/-! Behaviour of the three command sub-parsers on well-formed inputs, and
their failure on inputs for another verb. -/

theorem set_command_spec (k v rest : List Char)
    (hk : k ≠ []) (hkc : ∀ c ∈ k, c ≠ ' ' ∧ c ≠ '\r' ∧ c ≠ '\n')
    (hk0 : ∀ c, k.head? = some c → c ≠ '\t')
    (hv : containsCRLF v = false)
    (hv0 : ∀ c, v.head? = some c → isNomSpace c = false) :
    set_command ('S' :: 'E' :: 'T' :: ' ' :: (k ++ ' ' :: (v ++ '\r' :: '\n' :: rest)))
      = some ('\r' :: '\n' :: rest, Command.Set k.asString v.asString) := by
  obtain ⟨c0, k1, rfl⟩ := List.exists_cons_of_ne_nil hk
  have hc0 := hkc c0 (by simp)
  have hc0t : c0 ≠ '\t' := hk0 c0 rfl
  have e1 : tagP "SET".toList
      ('S' :: 'E' :: 'T' :: ' ' :: c0 :: (k1 ++ ' ' :: (v ++ '\r' :: '\n' :: rest)))
      = some (' ' :: c0 :: (k1 ++ ' ' :: (v ++ '\r' :: '\n' :: rest)), "SET".toList) := by
    exact tagP_append "SET".toList (' ' :: c0 :: (k1 ++ ' ' :: (v ++ '\r' :: '\n' :: rest)))
  have e2 : space1P (' ' :: c0 :: (k1 ++ ' ' :: (v ++ '\r' :: '\n' :: rest)))
      = some (c0 :: (k1 ++ ' ' :: (v ++ '\r' :: '\n' :: rest)), [' ']) := by
    exact takeWhile1P_spec isNomSpace [' '] c0 (k1 ++ ' ' :: (v ++ '\r' :: '\n' :: rest))
      (by simp) (by simp [isNomSpace]) (by simp [isNomSpace, hc0.1, hc0t])
  have e3 : takeWhile1P (fun c => c ≠ ' ' && c ≠ '\r' && c ≠ '\n')
      (c0 :: (k1 ++ ' ' :: (v ++ '\r' :: '\n' :: rest)))
      = some (' ' :: (v ++ '\r' :: '\n' :: rest), c0 :: k1) := by
    exact takeWhile1P_spec _ (c0 :: k1) ' ' (v ++ '\r' :: '\n' :: rest)
      (by simp)
      (by
        intro x hx
        have h := hkc x hx
        simp [h.1, h.2.1, h.2.2])
      (by simp)
  have e4 : space1P (' ' :: (v ++ '\r' :: '\n' :: rest))
      = some (v ++ '\r' :: '\n' :: rest, [' ']) := by
    cases v with
    | nil =>
      exact takeWhile1P_spec isNomSpace [' '] '\r' ('\n' :: rest)
        (by simp) (by simp [isNomSpace]) (by simp [isNomSpace])
    | cons d v1 =>
      have hd := hv0 d rfl
      exact takeWhile1P_spec isNomSpace [' '] d (v1 ++ '\r' :: '\n' :: rest)
        (by simp) (by simp [isNomSpace]) hd
  have e5 := takeUntilP_crlf v rest hv
  simp only [set_command, Option.bind_eq_bind, List.cons_append, e1, Option.some_bind,
    e2, e3, e4, e5, Option.pure_def]

theorem get_command_spec (k : List Char) (y : Char) (ys : List Char)
    (hk : k ≠ []) (hkc : ∀ c ∈ k, c ≠ ' ' ∧ c ≠ '\r' ∧ c ≠ '\n')
    (hk0 : ∀ c, k.head? = some c → c ≠ '\t')
    (hy : y = ' ' ∨ y = '\r' ∨ y = '\n') :
    get_command ('G' :: 'E' :: 'T' :: ' ' :: (k ++ y :: ys))
      = some (y :: ys, Command.Get k.asString) := by
  obtain ⟨c0, k1, rfl⟩ := List.exists_cons_of_ne_nil hk
  have hc0 := hkc c0 (by simp)
  have hc0t : c0 ≠ '\t' := hk0 c0 rfl
  have e1 : tagP "GET".toList ('G' :: 'E' :: 'T' :: ' ' :: c0 :: (k1 ++ y :: ys))
      = some (' ' :: c0 :: (k1 ++ y :: ys), "GET".toList) := by
    exact tagP_append "GET".toList (' ' :: c0 :: (k1 ++ y :: ys))
  have e2 : space1P (' ' :: c0 :: (k1 ++ y :: ys))
      = some (c0 :: (k1 ++ y :: ys), [' ']) := by
    exact takeWhile1P_spec isNomSpace [' '] c0 (k1 ++ y :: ys)
      (by simp) (by simp [isNomSpace]) (by simp [isNomSpace, hc0.1, hc0t])
  have e3 : takeWhile1P (fun c => c ≠ ' ' && c ≠ '\r' && c ≠ '\n')
      (c0 :: (k1 ++ y :: ys)) = some (y :: ys, c0 :: k1) := by
    exact takeWhile1P_spec _ (c0 :: k1) y ys
      (by simp)
      (by
        intro x hx
        have h := hkc x hx
        simp [h.1, h.2.1, h.2.2])
      (by rcases hy with h | h | h <;> simp [h])
  simp only [get_command, Option.bind_eq_bind, List.cons_append, e1, Option.some_bind,
    e2, e3, Option.pure_def]

theorem delete_command_spec (k : List Char) (y : Char) (ys : List Char)
    (hk : k ≠ []) (hkc : ∀ c ∈ k, c ≠ ' ' ∧ c ≠ '\r' ∧ c ≠ '\n')
    (hk0 : ∀ c, k.head? = some c → c ≠ '\t')
    (hy : y = ' ' ∨ y = '\r' ∨ y = '\n') :
    delete_command ('D' :: 'E' :: 'L' :: 'E' :: 'T' :: 'E' :: ' ' :: (k ++ y :: ys))
      = some (y :: ys, Command.Delete k.asString) := by
  obtain ⟨c0, k1, rfl⟩ := List.exists_cons_of_ne_nil hk
  have hc0 := hkc c0 (by simp)
  have hc0t : c0 ≠ '\t' := hk0 c0 rfl
  have e1 : tagP "DELETE".toList
      ('D' :: 'E' :: 'L' :: 'E' :: 'T' :: 'E' :: ' ' :: c0 :: (k1 ++ y :: ys))
      = some (' ' :: c0 :: (k1 ++ y :: ys), "DELETE".toList) := by
    exact tagP_append "DELETE".toList (' ' :: c0 :: (k1 ++ y :: ys))
  have e2 : space1P (' ' :: c0 :: (k1 ++ y :: ys))
      = some (c0 :: (k1 ++ y :: ys), [' ']) := by
    exact takeWhile1P_spec isNomSpace [' '] c0 (k1 ++ y :: ys)
      (by simp) (by simp [isNomSpace]) (by simp [isNomSpace, hc0.1, hc0t])
  have e3 : takeWhile1P (fun c => c ≠ ' ' && c ≠ '\r' && c ≠ '\n')
      (c0 :: (k1 ++ y :: ys)) = some (y :: ys, c0 :: k1) := by
    exact takeWhile1P_spec _ (c0 :: k1) y ys
      (by simp)
      (by
        intro x hx
        have h := hkc x hx
        simp [h.1, h.2.1, h.2.2])
      (by rcases hy with h | h | h <;> simp [h])
  simp only [delete_command, Option.bind_eq_bind, List.cons_append, e1, Option.some_bind,
    e2, e3, Option.pure_def]

theorem set_command_head_ne (c : Char) (hc : c ≠ 'S') (x : List Char) :
    set_command (c :: x) = none := by
  simp [set_command, show "SET".toList = ['S', 'E', 'T'] from rfl, tagP, hc]

theorem get_command_head_ne (c : Char) (hc : c ≠ 'G') (x : List Char) :
    get_command (c :: x) = none := by
  simp [get_command, show "GET".toList = ['G', 'E', 'T'] from rfl, tagP, hc]

theorem delete_command_head_ne (c : Char) (hc : c ≠ 'D') (x : List Char) :
    delete_command (c :: x) = none := by
  simp [delete_command, show "DELETE".toList = ['D', 'E', 'L', 'E', 'T', 'E'] from rfl,
    tagP, hc]

/-! Behaviour of the top-level parse on well-formed request lines. -/

theorem parse_command_set_crlf (k v rest : List Char)
    (hk : k ≠ []) (hkc : ∀ c ∈ k, c ≠ ' ' ∧ c ≠ '\r' ∧ c ≠ '\n')
    (hk0 : ∀ c, k.head? = some c → c ≠ '\t')
    (hv : containsCRLF v = false)
    (hv0 : ∀ c, v.head? = some c → isNomSpace c = false) :
    parse_command ('S' :: 'E' :: 'T' :: ' ' :: (k ++ ' ' :: (v ++ '\r' :: '\n' :: rest)))
      = some (Command.Set k.asString v.asString) := by
  have hs := set_command_spec k v rest hk hkc hk0 hv hv0
  have hterm : tagP ['\r', '\n'] ('\r' :: '\n' :: rest) = some (rest, ['\r', '\n']) := by
    exact tagP_append ['\r', '\n'] rest
  simp only [parse_command, commandParse, Option.bind_eq_bind, hs, Option.some_orElse',
    Option.some_bind, hterm, Option.pure_def, Option.map_some']

theorem parse_command_get_crlf (k rest : List Char)
    (hk : k ≠ []) (hkc : ∀ c ∈ k, c ≠ ' ' ∧ c ≠ '\r' ∧ c ≠ '\n')
    (hk0 : ∀ c, k.head? = some c → c ≠ '\t') :
    parse_command ('G' :: 'E' :: 'T' :: ' ' :: (k ++ '\r' :: '\n' :: rest))
      = some (Command.Get k.asString) := by
  have hg := get_command_spec k '\r' ('\n' :: rest) hk hkc hk0 (by simp)
  have hns := set_command_head_ne 'G' (by decide)
    ('E' :: 'T' :: ' ' :: (k ++ '\r' :: '\n' :: rest))
  have hterm : tagP ['\r', '\n'] ('\r' :: '\n' :: rest) = some (rest, ['\r', '\n']) := by
    exact tagP_append ['\r', '\n'] rest
  simp only [parse_command, commandParse, Option.bind_eq_bind, hns, Option.none_orElse',
    hg, Option.some_orElse', Option.some_bind, hterm, Option.pure_def, Option.map_some']

theorem parse_command_get_lf (k rest : List Char)
    (hk : k ≠ []) (hkc : ∀ c ∈ k, c ≠ ' ' ∧ c ≠ '\r' ∧ c ≠ '\n')
    (hk0 : ∀ c, k.head? = some c → c ≠ '\t') :
    parse_command ('G' :: 'E' :: 'T' :: ' ' :: (k ++ '\n' :: rest))
      = some (Command.Get k.asString) := by
  have hg := get_command_spec k '\n' rest hk hkc hk0 (by simp)
  have hns := set_command_head_ne 'G' (by decide)
    ('E' :: 'T' :: ' ' :: (k ++ '\n' :: rest))
  have ht1 : tagP ['\r', '\n'] ('\n' :: rest) = none := by
    simp [tagP]
  have ht2 : tagP ['\n'] ('\n' :: rest) = some (rest, ['\n']) := by
    exact tagP_append ['\n'] rest
  simp only [parse_command, commandParse, Option.bind_eq_bind, hns, Option.none_orElse',
    hg, Option.some_orElse', Option.some_bind, ht1, ht2, Option.pure_def, Option.map_some']

theorem parse_command_delete_crlf (k rest : List Char)
    (hk : k ≠ []) (hkc : ∀ c ∈ k, c ≠ ' ' ∧ c ≠ '\r' ∧ c ≠ '\n')
    (hk0 : ∀ c, k.head? = some c → c ≠ '\t') :
    parse_command ('D' :: 'E' :: 'L' :: 'E' :: 'T' :: 'E' :: ' ' :: (k ++ '\r' :: '\n' :: rest))
      = some (Command.Delete k.asString) := by
  have hd := delete_command_spec k '\r' ('\n' :: rest) hk hkc hk0 (by simp)
  have hns := set_command_head_ne 'D' (by decide)
    ('E' :: 'L' :: 'E' :: 'T' :: 'E' :: ' ' :: (k ++ '\r' :: '\n' :: rest))
  have hng := get_command_head_ne 'D' (by decide)
    ('E' :: 'L' :: 'E' :: 'T' :: 'E' :: ' ' :: (k ++ '\r' :: '\n' :: rest))
  have hterm : tagP ['\r', '\n'] ('\r' :: '\n' :: rest) = some (rest, ['\r', '\n']) := by
    exact tagP_append ['\r', '\n'] rest
  simp only [parse_command, commandParse, Option.bind_eq_bind, hns, Option.none_orElse',
    hng, hd, Option.some_orElse', Option.some_bind, hterm, Option.pure_def, Option.map_some']

theorem parse_command_delete_lf (k rest : List Char)
    (hk : k ≠ []) (hkc : ∀ c ∈ k, c ≠ ' ' ∧ c ≠ '\r' ∧ c ≠ '\n')
    (hk0 : ∀ c, k.head? = some c → c ≠ '\t') :
    parse_command ('D' :: 'E' :: 'L' :: 'E' :: 'T' :: 'E' :: ' ' :: (k ++ '\n' :: rest))
      = some (Command.Delete k.asString) := by
  have hd := delete_command_spec k '\n' rest hk hkc hk0 (by simp)
  have hns := set_command_head_ne 'D' (by decide)
    ('E' :: 'L' :: 'E' :: 'T' :: 'E' :: ' ' :: (k ++ '\n' :: rest))
  have hng := get_command_head_ne 'D' (by decide)
    ('E' :: 'L' :: 'E' :: 'T' :: 'E' :: ' ' :: (k ++ '\n' :: rest))
  have ht1 : tagP ['\r', '\n'] ('\n' :: rest) = none := by
    simp [tagP]
  have ht2 : tagP ['\n'] ('\n' :: rest) = some (rest, ['\n']) := by
    exact tagP_append ['\n'] rest
  simp only [parse_command, commandParse, Option.bind_eq_bind, hns, Option.none_orElse',
    hng, hd, Option.some_orElse', Option.some_bind, ht1, ht2, Option.pure_def,
    Option.map_some']

/-! Lemmas about `readLine`, `rustTrim` and `parse_response`. -/

theorem readLine_append (l r : List Char) (h : '\n' ∉ l) :
    readLine (l ++ '\n' :: r) = l ++ ['\n'] := by
  induction l with
  | nil => simp [readLine]
  | cons c l ih =>
    have hc : c ≠ '\n' := by
      intro hc
      exact h (by simp [hc])
    simp only [List.cons_append, readLine, hc, if_false, List.append_eq]
    rw [ih (fun hm => h (List.mem_cons_of_mem c hm))]

theorem dropWhile_append_of_all (p : Char → Bool) (x y : List Char)
    (hx : ∀ c ∈ x, p c = true) : (x ++ y).dropWhile p = y.dropWhile p := by
  induction x with
  | nil => simp
  | cons c x ih =>
    have hc : p c = true := hx c (by simp)
    simp only [List.cons_append, List.dropWhile_cons, hc, if_true]
    exact ih (fun d hd => hx d (by simp [hd]))

theorem dropWhile_of_head (p : Char → Bool) (l : List Char)
    (h : ∀ c, l.head? = some c → p c = false) : l.dropWhile p = l := by
  cases l with
  | nil => rfl
  | cons c l => simp [List.dropWhile_cons, h c rfl]

theorem rustTrim_spec (a w : List Char)
    (h1 : ∀ c, a.head? = some c → isRustWhitespace c = false)
    (h2 : ∀ c, a.getLast? = some c → isRustWhitespace c = false)
    (hw : ∀ c ∈ w, isRustWhitespace c = true) :
    rustTrim (a ++ w) = a := by
  cases a with
  | nil =>
    have hx : (w.dropWhile isRustWhitespace) = [] := by
      rw [List.dropWhile_eq_nil_iff]
      intro x hx
      exact hw x hx
    simp [rustTrim, hx]
  | cons c a1 =>
    have hc : isRustWhitespace c = false := h1 c rfl
    have hfront : ((c :: a1) ++ w).dropWhile isRustWhitespace = (c :: a1) ++ w := by
      simp [List.dropWhile_cons, hc]
    have hback : (((c :: a1) ++ w).reverse).dropWhile isRustWhitespace
        = (c :: a1).reverse := by
      rw [List.reverse_append]
      rw [dropWhile_append_of_all _ w.reverse _ (by
        intro d hd
        exact hw d (by simpa using hd))]
      apply dropWhile_of_head
      intro d hd
      rw [List.head?_reverse] at hd
      exact h2 d hd
    rw [rustTrim, hfront, hback, List.reverse_reverse]

theorem parse_response_value (v : String) :
    parse_response ("VALUE ".toList ++ v.toList) = some (Response.Value v) := by
  have e : ("VALUE ".toList ++ v.toList)
      = 'V' :: 'A' :: 'L' :: 'U' :: 'E' :: ' ' :: v.toList := rfl
  simp only [parse_response]
  rw [e, if_neg, if_neg, if_pos]
  · rw [show ('V' :: 'A' :: 'L' :: 'U' :: 'E' :: ' ' :: v.toList).drop 6 = v.toList
      from rfl, asString_toList]
  · simp [List.isPrefixOf, show "VALUE ".toList = ['V', 'A', 'L', 'U', 'E', ' '] from rfl]
  · simp [show "NOT_FOUND".toList = ['N', 'O', 'T', '_', 'F', 'O', 'U', 'N', 'D'] from rfl]
  · simp [show "OK".toList = ['O', 'K'] from rfl]

theorem parse_response_error (m : String) :
    parse_response ("ERROR ".toList ++ m.toList) = some (Response.Error m) := by
  have e : ("ERROR ".toList ++ m.toList)
      = 'E' :: 'R' :: 'R' :: 'O' :: 'R' :: ' ' :: m.toList := rfl
  simp only [parse_response]
  rw [e, if_neg, if_neg, if_neg, if_pos]
  · rw [show ('E' :: 'R' :: 'R' :: 'O' :: 'R' :: ' ' :: m.toList).drop 6 = m.toList
      from rfl, asString_toList]
  · simp [List.isPrefixOf, show "ERROR ".toList = ['E', 'R', 'R', 'O', 'R', ' '] from rfl]
  · simp [List.isPrefixOf, show "VALUE ".toList = ['V', 'A', 'L', 'U', 'E', ' '] from rfl]
  · simp [show "NOT_FOUND".toList = ['N', 'O', 'T', '_', 'F', 'O', 'U', 'N', 'D'] from rfl]
  · simp [show "OK".toList = ['O', 'K'] from rfl]

/-- Payloads for which the serialize-then-client-parse round trip can
succeed: no newline anywhere (the line framing), and non-empty with a
non-whitespace final character (the client trims the line it reads). -/
def roundTrippable : Response → Prop
  | Response.Ok => True
  | Response.NotFound => True
  | Response.Value v =>
    '\n' ∉ v.toList ∧ v.toList ≠ [] ∧
      (∀ c, v.toList.getLast? = some c → isRustWhitespace c = false)
  | Response.Error m =>
    '\n' ∉ m.toList ∧ m.toList ≠ [] ∧
      (∀ c, m.toList.getLast? = some c → isRustWhitespace c = false)

theorem clientRoundTrip_payload (pre : List Char) (v : String)
    (hpre : pre ≠ []) (hpre0 : ∀ c, pre.head? = some c → isRustWhitespace c = false)
    (hprenl : '\n' ∉ pre)
    (hnl : '\n' ∉ v.toList) (hne : v.toList ≠ [])
    (hlast : ∀ c, v.toList.getLast? = some c → isRustWhitespace c = false) :
    rustTrim (readLine ((pre ++ v.toList) ++ "\r\n".toList)) = pre ++ v.toList := by
  have hassoc : (pre ++ v.toList) ++ "\r\n".toList
      = ((pre ++ v.toList) ++ ['\r']) ++ '\n' :: [] := by
    rw [List.append_assoc (pre ++ v.toList) ['\r'] ('\n' :: [])]
    rfl
  have hnl2 : '\n' ∉ (pre ++ v.toList) ++ ['\r'] := by
    simp only [List.mem_append, List.mem_singleton]
    rintro ((h | h) | h)
    · exact hprenl h
    · exact hnl h
    · exact absurd h (by decide)
  rw [hassoc, readLine_append _ _ hnl2]
  have hassoc2 : ((pre ++ v.toList) ++ ['\r']) ++ ['\n']
      = (pre ++ v.toList) ++ ['\r', '\n'] := by
    rw [List.append_assoc]
    rfl
  rw [hassoc2]
  apply rustTrim_spec
  · intro c hc
    cases pre with
    | nil => exact absurd rfl hpre
    | cons p ps =>
      simp only [List.cons_append, List.head?_cons, Option.some.injEq] at hc
      subst hc
      exact hpre0 p rfl
  · intro c hc
    rw [List.getLast?_append_of_ne_nil pre hne] at hc
    exact hlast c hc
  · intro c hc
    simp only [List.mem_cons, List.not_mem_nil, or_false] at hc
    rcases hc with rfl | rfl <;> decide

theorem clientRoundTrip_spec (r : Response) (h : roundTrippable r) :
    clientRoundTrip r = some r := by
  cases r with
  | Ok => rfl
  | NotFound => rfl
  | Value v =>
    obtain ⟨hnl, hne, hlast⟩ := h
    have hl := clientRoundTrip_payload "VALUE ".toList v (by decide)
      (by intro c hc; cases hc; decide) (by decide) hnl hne hlast
    show parse_response (rustTrim (readLine
      ("VALUE ".toList ++ v.toList ++ "\r\n".toList))) = some (Response.Value v)
    rw [show "VALUE ".toList ++ v.toList ++ "\r\n".toList
      = ("VALUE ".toList ++ v.toList) ++ "\r\n".toList from rfl, hl]
    exact parse_response_value v
  | Error m =>
    obtain ⟨hnl, hne, hlast⟩ := h
    have hl := clientRoundTrip_payload "ERROR ".toList m (by decide)
      (by intro c hc; cases hc; decide) (by decide) hnl hne hlast
    show parse_response (rustTrim (readLine
      ("ERROR ".toList ++ m.toList ++ "\r\n".toList))) = some (Response.Error m)
    rw [show "ERROR ".toList ++ m.toList ++ "\r\n".toList
      = ("ERROR ".toList ++ m.toList) ++ "\r\n".toList from rfl, hl]
    exact parse_response_error m

/-! Decimal digit formatting: `natDigits` against its recursive
specification, and the round trip through `parseNat`. -/

/-- Recursive specification of the decimal digits, most significant first. -/
def digitsSpec (n : Nat) : List Char :=
  if _h : n < 10 then [Nat.digitChar n]
  else digitsSpec (n / 10) ++ [Nat.digitChar (n % 10)]
decreasing_by exact Nat.div_lt_self (by omega) (by omega)

theorem natDigitsAux_eq_digitsSpec (fuel : Nat) :
    ∀ (n : Nat) (ds : List Char), n < 10 ^ (fuel + 1) →
      natDigitsAux (fuel + 1) n ds = digitsSpec n ++ ds := by
  induction fuel with
  | zero =>
    intro n ds h
    have h10 : n < 10 := by simpa using h
    rw [natDigitsAux, if_pos h10, digitsSpec, dif_pos h10]
    rfl
  | succ fuel ih =>
    intro n ds h
    by_cases h10 : n < 10
    · rw [natDigitsAux, if_pos h10, digitsSpec, dif_pos h10]
      rfl
    · rw [natDigitsAux, if_neg h10, digitsSpec, dif_neg h10]
      have hdiv : n / 10 < 10 ^ (fuel + 1) := by
        rw [Nat.div_lt_iff_lt_mul (by norm_num)]
        calc n < 10 ^ (fuel + 1 + 1) := h
        _ = 10 ^ (fuel + 1) * 10 := by rw [pow_succ]
      rw [ih (n / 10) (Nat.digitChar (n % 10) :: ds) hdiv]
      rw [List.append_assoc]
      rfl

theorem natDigits_eq (n : Nat) : natDigits n = digitsSpec n := by
  have h : n < 10 ^ (n + 1) :=
    lt_of_lt_of_le (Nat.lt_pow_self (by norm_num) n)
      (Nat.pow_le_pow_right (by norm_num) (Nat.le_succ n))
  rw [natDigits, natDigitsAux_eq_digitsSpec n n [] h, List.append_nil]

theorem digitChar_isDigit (d : Nat) (hd : d < 10) :
    (Nat.digitChar d).isDigit = true := by
  interval_cases d <;> decide

theorem digitChar_toNat (d : Nat) (hd : d < 10) :
    (Nat.digitChar d).toNat - 48 = d := by
  interval_cases d <;> decide

theorem digitsSpec_isDigit (n : Nat) : ∀ c ∈ digitsSpec n, c.isDigit = true := by
  induction n using Nat.strong_induction_on with
  | _ n ih =>
    rw [digitsSpec]
    by_cases h10 : n < 10
    · rw [dif_pos h10]
      intro c hc
      simp only [List.mem_singleton] at hc
      subst hc
      exact digitChar_isDigit n h10
    · rw [dif_neg h10]
      intro c hc
      rcases List.mem_append.mp hc with h | h
      · exact ih (n / 10) (Nat.div_lt_self (by omega) (by omega)) c h
      · simp only [List.mem_singleton] at h
        subst h
        exact digitChar_isDigit (n % 10) (Nat.mod_lt n (by omega))

theorem digitsSpec_ne_nil (n : Nat) : digitsSpec n ≠ [] := by
  rw [digitsSpec]
  by_cases h10 : n < 10
  · rw [dif_pos h10]
    simp
  · rw [dif_neg h10]
    simp

theorem digitsSpec_foldl (n : Nat) :
    (digitsSpec n).foldl (fun acc c => 10 * acc + (c.toNat - 48)) 0 = n := by
  induction n using Nat.strong_induction_on with
  | _ n ih =>
    rw [digitsSpec]
    by_cases h10 : n < 10
    · rw [dif_pos h10]
      simp only [List.foldl_cons, List.foldl_nil, Nat.mul_zero, Nat.zero_add]
      exact digitChar_toNat n h10
    · rw [dif_neg h10]
      rw [List.foldl_append]
      rw [ih (n / 10) (Nat.div_lt_self (by omega) (by omega))]
      simp only [List.foldl_cons, List.foldl_nil]
      rw [digitChar_toNat (n % 10) (Nat.mod_lt n (by omega))]
      omega

theorem parseNat_append (n : Nat) (c : Char) (r : List Char)
    (hc : c.isDigit = false) :
    parseNat (natDigits n ++ c :: r) = some (n, c :: r) := by
  rw [natDigits_eq]
  unfold parseNat
  rw [takeWhile_append_cons Char.isDigit (digitsSpec n) c r (digitsSpec_isDigit n) hc]
  have hne : (digitsSpec n).isEmpty = false := by
    cases h : digitsSpec n with
    | nil => exact absurd h (digitsSpec_ne_nil n)
    | cons a l => rfl
  simp only [hne, Bool.false_eq_true, if_false, Option.some.injEq]
  rw [digitsSpec_foldl n, List.drop_left]

/-! Round trip of the JSON string escaping. -/

theorem hexVal_digitChar (d : Nat) (hd : d < 16) :
    hexVal (Nat.digitChar d) = some d := by
  interval_cases d <;> decide

theorem digitChar_ne_nl (d : Nat) (hd : d < 16) :
    Nat.digitChar d ≠ '\n' ∧ Nat.digitChar d ≠ '\r' := by
  interval_cases d <;> decide

theorem parseStringBody_escape (cs r : List Char) :
    parseStringBody ((cs.map escapeChar).flatten ++ '"' :: r) = some (cs, r) := by
  induction cs with
  | nil =>
    rw [List.map_nil, List.flatten_nil, List.nil_append, parseStringBody.eq_def]
    simp
  | cons c cs ih =>
    rw [List.map_cons, List.flatten_cons, List.append_assoc]
    by_cases h1 : c = '"'
    · subst h1
      rw [show escapeChar '"' = ['\\', '"'] from rfl]
      rw [List.cons_append, List.cons_append, List.nil_append, parseStringBody.eq_def]
      simp [unescapeChar, ih]
    by_cases h2 : c = '\\'
    · subst h2
      rw [show escapeChar '\\' = ['\\', '\\'] from rfl]
      rw [List.cons_append, List.cons_append, List.nil_append, parseStringBody.eq_def]
      simp [unescapeChar, ih]
    by_cases h3 : c = '\x08'
    · subst h3
      rw [show escapeChar '\x08' = ['\\', 'b'] from rfl]
      rw [List.cons_append, List.cons_append, List.nil_append, parseStringBody.eq_def]
      simp [unescapeChar, ih]
    by_cases h4 : c = '\t'
    · subst h4
      rw [show escapeChar '\t' = ['\\', 't'] from rfl]
      rw [List.cons_append, List.cons_append, List.nil_append, parseStringBody.eq_def]
      simp [unescapeChar, ih]
    by_cases h5 : c = '\n'
    · subst h5
      rw [show escapeChar '\n' = ['\\', 'n'] from rfl]
      rw [List.cons_append, List.cons_append, List.nil_append, parseStringBody.eq_def]
      simp [unescapeChar, ih]
    by_cases h6 : c = '\x0c'
    · subst h6
      rw [show escapeChar '\x0c' = ['\\', 'f'] from rfl]
      rw [List.cons_append, List.cons_append, List.nil_append, parseStringBody.eq_def]
      simp [unescapeChar, ih]
    by_cases h7 : c = '\r'
    · subst h7
      rw [show escapeChar '\r' = ['\\', 'r'] from rfl]
      rw [List.cons_append, List.cons_append, List.nil_append, parseStringBody.eq_def]
      simp [unescapeChar, ih]
    by_cases h8 : c.toNat < 0x20
    · have hdiv : c.toNat / 16 < 16 := by omega
      have hmod : c.toNat % 16 < 16 := by omega
      have harith : ((0 * 16 + 0) * 16 + c.toNat / 16) * 16 + c.toNat % 16 = c.toNat := by
        omega
      rw [show escapeChar c
          = ['\\', 'u', '0', '0', Nat.digitChar (c.toNat / 16), Nat.digitChar (c.toNat % 16)]
        from by
          rw [escapeChar, if_neg h1, if_neg h2, if_neg h3, if_neg h4, if_neg h5,
            if_neg h6, if_neg h7, if_pos h8]]
      rw [List.cons_append, List.cons_append, List.cons_append, List.cons_append,
        List.cons_append, List.cons_append, List.nil_append, parseStringBody.eq_def]
      simp [hexVal_digitChar _ hdiv, hexVal_digitChar _ hmod,
        show hexVal '0' = some 0 from rfl, ih, harith, Char.ofNat_toNat]
      rw [show c.toNat / 16 * 16 + c.toNat % 16 = c.toNat from by omega, Char.ofNat_toNat]
    · rw [show escapeChar c = [c] from by
        rw [escapeChar, if_neg h1, if_neg h2, if_neg h3, if_neg h4, if_neg h5,
          if_neg h6, if_neg h7, if_neg h8]]
      rw [List.cons_append, List.nil_append, parseStringBody.eq_def]
      simp [h1, h2, h8, ih]

theorem expectTok_append (t r : List Char) : expectTok t (t ++ r) = some r := by
  induction t with
  | nil => rfl
  | cons a ts ih => simp [expectTok, ih]

theorem expectTok_set_get (x : List Char) :
    expectTok "\x7b\"Set\":\x7b\"key\":".toList
      ("\x7b\"Get\":\x7b\"key\":".toList ++ x) = none := by
  rw [show "\x7b\"Get\":\x7b\"key\":".toList ++ x
    = '\x7b' :: '"' :: 'G' :: ("et\":\x7b\"key\":".toList ++ x) from rfl]
  simp [expectTok,
    show "\x7b\"Set\":\x7b\"key\":".toList
      = '\x7b' :: '"' :: 'S' :: "et\":\x7b\"key\":".toList from rfl]

theorem expectTok_set_delete (x : List Char) :
    expectTok "\x7b\"Set\":\x7b\"key\":".toList
      ("\x7b\"Delete\":\x7b\"key\":".toList ++ x) = none := by
  rw [show "\x7b\"Delete\":\x7b\"key\":".toList ++ x
    = '\x7b' :: '"' :: 'D' :: ("elete\":\x7b\"key\":".toList ++ x) from rfl]
  simp [expectTok,
    show "\x7b\"Set\":\x7b\"key\":".toList
      = '\x7b' :: '"' :: 'S' :: "et\":\x7b\"key\":".toList from rfl]

theorem expectTok_get_delete (x : List Char) :
    expectTok "\x7b\"Get\":\x7b\"key\":".toList
      ("\x7b\"Delete\":\x7b\"key\":".toList ++ x) = none := by
  rw [show "\x7b\"Delete\":\x7b\"key\":".toList ++ x
    = '\x7b' :: '"' :: 'D' :: ("elete\":\x7b\"key\":".toList ++ x) from rfl]
  simp [expectTok,
    show "\x7b\"Get\":\x7b\"key\":".toList
      = '\x7b' :: '"' :: 'G' :: "et\":\x7b\"key\":".toList from rfl]

theorem parseJsonString_append (s : String) (r : List Char) :
    parseJsonString (jsonString s ++ r) = some (s, r) := by
  have h1 : jsonString s ++ r
      = '"' :: ((s.toList.map escapeChar).flatten ++ '"' :: r) := by
    rw [jsonString, escapeString, List.cons_append, List.append_assoc]
    rfl
  rw [h1]
  unfold parseJsonString
  rw [show expectTok ['"'] ('"' :: ((s.toList.map escapeChar).flatten ++ '"' :: r))
      = some ((s.toList.map escapeChar).flatten ++ '"' :: r) from rfl]
  simp only [Option.bind_eq_bind, Option.some_bind, parseStringBody_escape,
    asString_toList, Option.pure_def]

theorem parseCommandJson_append (cmd : Command) (r : List Char) :
    parseCommandJson (serializeCommand cmd ++ r) = some (cmd, r) := by
  cases cmd with
  | Set k v =>
    have h0 : serializeCommand (Command.Set k v) ++ r
        = "\x7b\"Set\":\x7b\"key\":".toList ++ (jsonString k ++
            (",\"value\":".toList ++ (jsonString v ++ ("\x7d\x7d".toList ++ r)))) := by
      simp [serializeCommand, List.append_assoc]
    unfold parseCommandJson
    rw [h0, expectTok_append]
    simp only [Option.bind_eq_bind, Option.some_bind, parseJsonString_append,
      expectTok_append, Option.pure_def]
  | Get k =>
    have h0 : serializeCommand (Command.Get k) ++ r
        = "\x7b\"Get\":\x7b\"key\":".toList ++ (jsonString k ++ ("\x7d\x7d".toList ++ r)) := by
      simp [serializeCommand, List.append_assoc]
    unfold parseCommandJson
    rw [h0, expectTok_set_get, expectTok_append]
    simp only [Option.bind_eq_bind, Option.some_bind, parseJsonString_append,
      expectTok_append, Option.pure_def]
  | Delete k =>
    have h0 : serializeCommand (Command.Delete k) ++ r
        = "\x7b\"Delete\":\x7b\"key\":".toList ++ (jsonString k ++ ("\x7d\x7d".toList ++ r)) := by
      simp [serializeCommand, List.append_assoc]
    unfold parseCommandJson
    rw [h0, expectTok_set_delete, expectTok_get_delete, expectTok_append]
    simp only [Option.bind_eq_bind, Option.some_bind, parseJsonString_append,
      expectTok_append, Option.pure_def]

theorem parseEntryJson_append (e : WalEntry) (r : List Char) :
    parseEntryJson (serializeEntry e ++ r) = some (e, r) := by
  obtain ⟨t, cmd⟩ := e
  have h0 : serializeEntry (WalEntry.mk t cmd) ++ r
      = "\x7b\"timestamp\":".toList ++ (natDigits t ++ (",\"command\":".toList ++
          (serializeCommand cmd ++ ("\x7d".toList ++ r)))) := by
    simp [serializeEntry, List.append_assoc]
  unfold parseEntryJson
  rw [h0, expectTok_append]
  simp only [Option.bind_eq_bind, Option.some_bind]
  rw [show (",\"command\":".toList ++ (serializeCommand cmd ++ ("\x7d".toList ++ r)))
    = ',' :: ("\"command\":".toList ++ (serializeCommand cmd ++ ("\x7d".toList ++ r)))
    from rfl]
  rw [parseNat_append t ',' _ (by decide)]
  simp only [Option.some_bind]
  rw [show (',' :: ("\"command\":".toList ++ (serializeCommand cmd ++ ("\x7d".toList ++ r))))
    = ",\"command\":".toList ++ (serializeCommand cmd ++ ("\x7d".toList ++ r)) from rfl]
  rw [expectTok_append]
  simp only [Option.some_bind]
  rw [parseCommandJson_append]
  simp only [Option.some_bind]
  rw [expectTok_append]
  simp only [Option.some_bind, Option.pure_def]

theorem parseWalLine_serialize (e : WalEntry) :
    parseWalLine (serializeEntry e) = some e := by
  unfold parseWalLine
  rw [show serializeEntry e = serializeEntry e ++ [] from (List.append_nil _).symm,
    parseEntryJson_append]

theorem mem_of_getLast?_eq (l : List Char) (a : Char) (h : l.getLast? = some a) :
    a ∈ l := by
  obtain ⟨hne, h2⟩ := List.mem_getLast?_eq_getLast (show a ∈ l.getLast? by
    simp [Option.mem_def, h])
  subst h2
  exact List.getLast_mem hne

theorem escapeChar_ne_nl (c : Char) : ∀ x ∈ escapeChar c, x ≠ '\n' ∧ x ≠ '\r' := by
  intro x hx
  unfold escapeChar at hx
  by_cases h1 : c = '"'
  · rw [if_pos h1] at hx
    simp only [List.mem_cons, List.not_mem_nil, or_false] at hx
    rcases hx with rfl | rfl <;> decide
  rw [if_neg h1] at hx
  by_cases h2 : c = '\\'
  · rw [if_pos h2] at hx
    simp only [List.mem_cons, List.not_mem_nil, or_false] at hx
    rcases hx with rfl | rfl <;> decide
  rw [if_neg h2] at hx
  by_cases h3 : c = '\x08'
  · rw [if_pos h3] at hx
    simp only [List.mem_cons, List.not_mem_nil, or_false] at hx
    rcases hx with rfl | rfl <;> decide
  rw [if_neg h3] at hx
  by_cases h4 : c = '\t'
  · rw [if_pos h4] at hx
    simp only [List.mem_cons, List.not_mem_nil, or_false] at hx
    rcases hx with rfl | rfl <;> decide
  rw [if_neg h4] at hx
  by_cases h5 : c = '\n'
  · rw [if_pos h5] at hx
    simp only [List.mem_cons, List.not_mem_nil, or_false] at hx
    rcases hx with rfl | rfl <;> decide
  rw [if_neg h5] at hx
  by_cases h6 : c = '\x0c'
  · rw [if_pos h6] at hx
    simp only [List.mem_cons, List.not_mem_nil, or_false] at hx
    rcases hx with rfl | rfl <;> decide
  rw [if_neg h6] at hx
  by_cases h7 : c = '\r'
  · rw [if_pos h7] at hx
    simp only [List.mem_cons, List.not_mem_nil, or_false] at hx
    rcases hx with rfl | rfl <;> decide
  rw [if_neg h7] at hx
  by_cases h8 : c.toNat < 0x20
  · rw [if_pos h8] at hx
    simp only [List.mem_cons, List.not_mem_nil, or_false] at hx
    rcases hx with rfl | rfl | rfl | rfl | rfl | rfl
    · decide
    · decide
    · decide
    · decide
    · exact digitChar_ne_nl (c.toNat / 16) (by omega)
    · exact digitChar_ne_nl (c.toNat % 16) (by omega)
  · rw [if_neg h8] at hx
    simp only [List.mem_singleton] at hx
    subst hx
    constructor
    · intro hc
      subst hc
      exact h8 (by decide)
    · intro hc
      subst hc
      exact h8 (by decide)

theorem isDigit_ne_nl (c : Char) (h : c.isDigit = true) : c ≠ '\n' ∧ c ≠ '\r' := by
  constructor <;> rintro rfl <;> exact absurd h (by decide)

theorem jsonString_ne_nl (s : String) : ∀ x ∈ jsonString s, x ≠ '\n' ∧ x ≠ '\r' := by
  intro x hx
  rw [jsonString] at hx
  simp only [List.mem_cons, List.mem_append, List.mem_singleton, List.not_mem_nil,
    or_false] at hx
  rcases hx with rfl | hx | rfl
  · decide
  · rw [escapeString] at hx
    rw [List.mem_flatten] at hx
    obtain ⟨a, ha, hxa⟩ := hx
    rw [List.mem_map] at ha
    obtain ⟨c, _, rfl⟩ := ha
    exact escapeChar_ne_nl c x hxa
  · decide

theorem serializeCommand_ne_nl (cmd : Command) :
    ∀ x ∈ serializeCommand cmd, x ≠ '\n' ∧ x ≠ '\r' := by
  intro x hx
  cases cmd with
  | Set k v =>
    simp only [serializeCommand, List.mem_append] at hx
    rcases hx with ((((hx | hx) | hx) | hx) | hx)
    · fin_cases hx <;> decide
    · exact jsonString_ne_nl k x hx
    · fin_cases hx <;> decide
    · exact jsonString_ne_nl v x hx
    · fin_cases hx <;> decide
  | Get k =>
    simp only [serializeCommand, List.mem_append] at hx
    rcases hx with ((hx | hx) | hx)
    · fin_cases hx <;> decide
    · exact jsonString_ne_nl k x hx
    · fin_cases hx <;> decide
  | Delete k =>
    simp only [serializeCommand, List.mem_append] at hx
    rcases hx with ((hx | hx) | hx)
    · fin_cases hx <;> decide
    · exact jsonString_ne_nl k x hx
    · fin_cases hx <;> decide

theorem serializeEntry_ne_nl (e : WalEntry) :
    ∀ x ∈ serializeEntry e, x ≠ '\n' ∧ x ≠ '\r' := by
  intro x hx
  simp only [serializeEntry, List.mem_append] at hx
  rcases hx with (((hx | hx) | hx) | hx) | hx
  · fin_cases hx <;> decide
  · rw [natDigits_eq] at hx
    exact isDigit_ne_nl x (digitsSpec_isDigit e.timestamp x hx)
  · fin_cases hx <;> decide
  · exact serializeCommand_ne_nl e.command x hx
  · fin_cases hx <;> decide

theorem linesRaw_append (s rest : List Char) (h : '\n' ∉ s) :
    linesRaw (s ++ '\n' :: rest) = s :: linesRaw rest := by
  induction s with
  | nil =>
    rw [List.nil_append, linesRaw.eq_def]
    simp
  | cons c s ih =>
    have hc : c ≠ '\n' := fun hc => h (by simp [hc])
    have ihs := ih (fun hm => h (by simp [hm]))
    rw [List.cons_append, linesRaw.eq_def]
    simp only [List.append_eq] at ihs ⊢
    rw [if_neg hc, ihs]

theorem stripTrailingCR_of_no_cr (l : List Char) (h : '\r' ∉ l) :
    stripTrailingCR l = l := by
  rw [stripTrailingCR]
  cases hE : l.getLast? with
  | none => simp [hE]
  | some c =>
    have hc : c ≠ '\r' := fun hcc => h (hcc ▸ mem_of_getLast?_eq l c hE)
    simp [hE, hc]

theorem rustTrim_cons_ne (c : Char) (l : List Char)
    (hc : isRustWhitespace c = false) :
    (rustTrim (c :: l)).isEmpty = false := by
  have h1 : (c :: l).dropWhile isRustWhitespace = c :: l := by
    simp [List.dropWhile_cons, hc]
  rw [rustTrim, h1]
  cases hE : (c :: l).reverse.dropWhile isRustWhitespace with
  | nil =>
    exfalso
    rw [List.dropWhile_eq_nil_iff] at hE
    have h2 := hE c (by simp)
    rw [hc] at h2
    exact absurd h2 (by decide)
  | cons a as =>
    simp [List.isEmpty_iff]

theorem trim_serializeEntry (e : WalEntry) :
    (rustTrim (serializeEntry e)).isEmpty = false := by
  exact rustTrim_cons_ne '\x7b'
    ("\"timestamp\":".toList ++ natDigits e.timestamp ++ ",\"command\":".toList ++
      serializeCommand e.command ++ "\x7d".toList) (by decide)

theorem linesOf_fileOf (es : List WalEntry) :
    linesOf (fileOf es) = es.map serializeEntry := by
  induction es with
  | nil => rfl
  | cons e es ih =>
    have hnl : '\n' ∉ serializeEntry e := by
      intro hm
      exact (serializeEntry_ne_nl e '\n' hm).1 rfl
    have hcr : '\r' ∉ serializeEntry e := by
      intro hm
      exact (serializeEntry_ne_nl e '\r' hm).2 rfl
    have h1 : fileOf (e :: es) = serializeEntry e ++ '\n' :: fileOf es := by
      rw [fileOf, List.map_cons, List.flatten_cons, List.append_assoc]
      rfl
    rw [linesOf, h1, linesRaw_append _ _ hnl, List.map_cons,
      stripTrailingCR_of_no_cr _ hcr]
    rw [linesOf] at ih
    rw [ih]
    rfl

theorem replayLines_entries (es : List WalEntry) (m : KS) :
    replayLines m (es.map serializeEntry)
      = Except.ok (es.foldl (fun m2 e => applyReplay m2 e.command) m) := by
  induction es generalizing m with
  | nil => rfl
  | cons e es ih =>
    rw [List.map_cons, replayLines.eq_def]
    simp only [trim_serializeEntry e, Bool.false_eq_true, if_false,
      parseWalLine_serialize e]
    rw [ih]
    rfl

theorem replayFile_fileOf (es : List WalEntry) :
    restore_from_wal (fileOf es)
      = Except.ok (es.foldl (fun m e => applyReplay m e.command) emptyKS) := by
  rw [restore_from_wal, linesOf_fileOf, replayLines_entries]

theorem runMutations_invariant :
    ∀ (ms : List Mutation) (s : MemoryStore),
      s.wal.foldl (fun m e => applyReplay m e.command) emptyKS = s.data →
      (ms.foldl applyMutation s).wal.foldl (fun m e => applyReplay m e.command) emptyKS
        = (ms.foldl applyMutation s).data := by
  intro ms
  induction ms with
  | nil => intro s h; exact h
  | cons mu ms ih =>
    intro s h
    rw [List.foldl_cons]
    apply ih
    cases mu with
    | set ts k v =>
      rw [show applyMutation s (Mutation.set ts k v)
          = { data := ksInsert k v s.data,
              wal := s.wal ++ [WalEntry.mk ts (Command.Set k v)] } from rfl]
      show (s.wal ++ [WalEntry.mk ts (Command.Set k v)]).foldl
          (fun m e => applyReplay m e.command) emptyKS = ksInsert k v s.data
      rw [List.foldl_append, h]
      rfl
    | delete ts k =>
      rw [show applyMutation s (Mutation.delete ts k)
          = { data := ksRemove k s.data,
              wal := s.wal ++ [WalEntry.mk ts (Command.Delete k)] } from rfl]
      show (s.wal ++ [WalEntry.mk ts (Command.Delete k)]).foldl
          (fun m e => applyReplay m e.command) emptyKS = ksRemove k s.data
      rw [List.foldl_append, h]
      rfl


theorem takeUntilP_crlf_none (l : List Char) (h : containsCRLF l = false) :
    takeUntilP ['\r', '\n'] l = none := by
  induction l with
  | nil => rfl
  | cons c l ih =>
    rw [containsCRLF, Bool.or_eq_false_iff] at h
    rw [takeUntilP, if_neg (by rw [h.1]; exact fun hc => absurd hc (by decide)), ih h.2]
    rfl

theorem parse_command_set_lf_none (k v : List Char)
    (hk : k ≠ []) (hkc : ∀ c ∈ k, c ≠ ' ' ∧ c ≠ '\r' ∧ c ≠ '\n')
    (hk0 : ∀ c, k.head? = some c → c ≠ '\t')
    (hv2 : containsCRLF (v ++ ['\n']) = false)
    (hv0 : ∀ c, v.head? = some c → isNomSpace c = false) :
    parse_command ('S' :: 'E' :: 'T' :: ' ' :: (k ++ ' ' :: (v ++ ['\n']))) = none := by
  obtain ⟨c0, k1, rfl⟩ := List.exists_cons_of_ne_nil hk
  have hc0 := hkc c0 (by simp)
  have hc0t : c0 ≠ '\t' := hk0 c0 rfl
  have e1 : tagP "SET".toList
      ('S' :: 'E' :: 'T' :: ' ' :: c0 :: (k1 ++ ' ' :: (v ++ ['\n'])))
      = some (' ' :: c0 :: (k1 ++ ' ' :: (v ++ ['\n'])), "SET".toList) := by
    exact tagP_append "SET".toList (' ' :: c0 :: (k1 ++ ' ' :: (v ++ ['\n'])))
  have e2 : space1P (' ' :: c0 :: (k1 ++ ' ' :: (v ++ ['\n'])))
      = some (c0 :: (k1 ++ ' ' :: (v ++ ['\n'])), [' ']) := by
    exact takeWhile1P_spec isNomSpace [' '] c0 (k1 ++ ' ' :: (v ++ ['\n']))
      (by simp) (by simp [isNomSpace]) (by simp [isNomSpace, hc0.1, hc0t])
  have e3 : takeWhile1P (fun c => c ≠ ' ' && c ≠ '\r' && c ≠ '\n')
      (c0 :: (k1 ++ ' ' :: (v ++ ['\n'])))
      = some (' ' :: (v ++ ['\n']), c0 :: k1) := by
    exact takeWhile1P_spec _ (c0 :: k1) ' ' (v ++ ['\n'])
      (by simp)
      (by
        intro x hx
        have h := hkc x hx
        simp [h.1, h.2.1, h.2.2])
      (by simp)
  have e4 : space1P (' ' :: (v ++ ['\n'])) = some (v ++ ['\n'], [' ']) := by
    cases v with
    | nil =>
      exact takeWhile1P_spec isNomSpace [' '] '\n' []
        (by simp) (by simp [isNomSpace]) (by simp [isNomSpace])
    | cons d v1 =>
      have hd := hv0 d rfl
      exact takeWhile1P_spec isNomSpace [' '] d (v1 ++ ['\n'])
        (by simp) (by simp [isNomSpace]) hd
  have e5 := takeUntilP_crlf_none (v ++ ['\n']) hv2
  have hset : set_command ('S' :: 'E' :: 'T' :: ' ' :: c0 :: (k1 ++ ' ' :: (v ++ ['\n'])))
      = none := by
    simp only [set_command, Option.bind_eq_bind, List.cons_append, e1, Option.some_bind,
      e2, e3, e4, e5, Option.none_bind]
  have hget := get_command_head_ne 'S' (by decide)
    ('E' :: 'T' :: ' ' :: c0 :: (k1 ++ ' ' :: (v ++ ['\n'])))
  have hdel := delete_command_head_ne 'S' (by decide)
    ('E' :: 'T' :: ' ' :: c0 :: (k1 ++ ' ' :: (v ++ ['\n'])))
  simp only [parse_command, commandParse, Option.bind_eq_bind, List.cons_append, hset,
    Option.none_orElse', hget, hdel, Option.none_bind, Option.map_none']



/-- Payloads with no newline byte: the claim's precondition for the
no-interior-newline part of the serializer contract. -/
def payloadNewlineFree : Response → Prop
  | Response.Ok => True
  | Response.NotFound => True
  | Response.Value v => '\n' ∉ v.toList
  | Response.Error e => '\n' ∉ e.toList

/-- Helper shared by the replay-equivalence results: a store built from
acknowledged mutations replays its own WAL file back to its in-memory
keyspace. -/
theorem replay_runMutations (ms : List Mutation) :
    restore_from_wal (fileOf (runMutations ms).wal)
      = Except.ok (runMutations ms).data := by
  rw [replayFile_fileOf]
  exact congrArg Except.ok (runMutations_invariant ms MemoryStore.empty rfl)



/-! Claim theorems. -/

/-- C1: for every sequence of acknowledged mutations applied through the
WAL-backed store, replaying the complete WAL file (`restore_from_wal`) into a
fresh empty keyspace yields exactly the in-memory keyspace that existed after
the last acknowledged mutation (the WAL file has no partial-line tail by
construction). -/
theorem C1_replay_equivalence (ms : List Mutation) :
    restore_from_wal (fileOf (runMutations ms).wal)
      = Except.ok (runMutations ms).data :=
  replay_runMutations ms

/-- C2: the claim says a truncated final WAL line must be skipped silently;
the code instead aborts replay.  On a WAL holding one complete `Set "a" "1"`
entry followed by a 20-byte proper prefix of a valid `Delete "a"` line,
`restore_from_wal` returns an error (the server refuses to start), although
replay of the intact part alone succeeds with the keyspace mapping
`"a" ↦ "1"`. -/
theorem C2_truncated_tail_aborts_replay :
    restore_from_wal (fileOf [WalEntry.mk 100 (Command.Set "a" "1")]
        ++ (serializeEntry (WalEntry.mk 101 (Command.Delete "a"))).take 20)
      = Except.error ()
    ∧ restore_from_wal (fileOf [WalEntry.mk 100 (Command.Set "a" "1")])
      = Except.ok (ksInsert "a" "1" emptyKS)
    ∧ (serializeEntry (WalEntry.mk 101 (Command.Delete "a"))).take 20 ≠ []
    ∧ 20 < (serializeEntry (WalEntry.mk 101 (Command.Delete "a"))).length :=
  ⟨rfl, rfl, by decide, by decide⟩

/-- C3: on a WAL-backed store, a failing WAL append makes `set` and `delete`
return an error with the store completely unchanged, and a successful WAL
append is the only path on which the in-memory mapping is modified — the
resulting state then holds both the appended entry and the updated mapping. -/
theorem C3_wal_failure_leaves_memory_unchanged (s : MemoryStore) (k v : String)
    (ts : Nat) :
    MemoryStore.set false ts s k v = (Except.error (), s)
    ∧ MemoryStore.delete false ts s k = (Except.error (), s)
    ∧ MemoryStore.set true ts s k v
      = (Except.ok (), MemoryStore.mk (ksInsert k v s.data)
          (s.wal ++ [WalEntry.mk ts (Command.Set k v)]))
    ∧ MemoryStore.delete true ts s k
      = (Except.ok ((s.data k).isSome), MemoryStore.mk (ksRemove k s.data)
          (s.wal ++ [WalEntry.mk ts (Command.Delete k)])) :=
  ⟨rfl, rfl, rfl, rfl⟩

/-- C4 counterexample: the claim says `SET <key> <value>` terminated by a
bare `\n` parses; in fact `parse_command` rejects the line `SET a b\n`
because the value parser searches for `\r\n`. -/
theorem C4_counterexample_set_lf_rejected :
    parse_command "SET a b\n".toList = none
    ∧ (none : Option Command) ≠ some (Command.Set "a" "b") :=
  ⟨rfl, by decide⟩

/-- C4 amended: `parse_command` accepts both terminators for GET and DELETE,
but a SET line parses only when the input contains `\r\n`: with a `\r\n`
terminator the value is taken verbatim up to the `\r\n` (embedded spaces
included), while a SET line terminated by a bare `\n` and containing no
`\r\n` is rejected. -/
theorem C4_set_requires_crlf (k v : List Char)
    (hk : k ≠ []) (hkc : ∀ c ∈ k, c ≠ ' ' ∧ c ≠ '\r' ∧ c ≠ '\n')
    (hk0 : ∀ c, k.head? = some c → c ≠ '\t')
    (hv : containsCRLF v = false)
    (hv0 : ∀ c, v.head? = some c → isNomSpace c = false)
    (hv2 : containsCRLF (v ++ ['\n']) = false) :
    parse_command ('S' :: 'E' :: 'T' :: ' ' :: (k ++ ' ' :: (v ++ '\r' :: '\n' :: [])))
      = some (Command.Set k.asString v.asString)
    ∧ parse_command ('G' :: 'E' :: 'T' :: ' ' :: (k ++ '\n' :: []))
      = some (Command.Get k.asString)
    ∧ parse_command ('D' :: 'E' :: 'L' :: 'E' :: 'T' :: 'E' :: ' ' :: (k ++ '\n' :: []))
      = some (Command.Delete k.asString)
    ∧ parse_command ('S' :: 'E' :: 'T' :: ' ' :: (k ++ ' ' :: (v ++ ['\n']))) = none :=
  ⟨parse_command_set_crlf k v [] hk hkc hk0 hv hv0,
   parse_command_get_lf k [] hk hkc hk0,
   parse_command_delete_lf k [] hk hkc hk0,
   parse_command_set_lf_none k v hk hkc hk0 hv2 hv0⟩

theorem C4_witness :
    ((['k'] : List Char) ≠ []
      ∧ (∀ c ∈ (['k'] : List Char), c ≠ ' ' ∧ c ≠ '\r' ∧ c ≠ '\n')
      ∧ (∀ c, (['k'] : List Char).head? = some c → c ≠ '\t')
      ∧ containsCRLF ['v'] = false
      ∧ (∀ c, (['v'] : List Char).head? = some c → isNomSpace c = false)
      ∧ containsCRLF (['v'] ++ ['\n']) = false)
    ∧ parse_command "SET k v\r\n".toList = some (Command.Set "k" "v")
    ∧ parse_command "GET k\n".toList = some (Command.Get "k")
    ∧ parse_command "DELETE k\n".toList = some (Command.Delete "k")
    ∧ parse_command "SET k v\n".toList = none := by
  refine ⟨⟨by decide, by decide, by decide, by decide, by decide, by decide⟩, ?_, ?_, ?_, ?_⟩
  · exact (C4_set_requires_crlf ['k'] ['v'] (by decide) (by decide) (by decide)
      (by decide) (by decide) (by decide)).1
  · exact (C4_set_requires_crlf ['k'] ['v'] (by decide) (by decide) (by decide)
      (by decide) (by decide) (by decide)).2.1
  · exact (C4_set_requires_crlf ['k'] ['v'] (by decide) (by decide) (by decide)
      (by decide) (by decide) (by decide)).2.2.1
  · exact (C4_set_requires_crlf ['k'] ['v'] (by decide) (by decide) (by decide)
      (by decide) (by decide) (by decide)).2.2.2



/-- C5 counterexample: the claim includes the empty payload, but serializing
`Value ""` and running the client's read-trim-parse pipeline yields the
client's unknown-format error, not `Value ""` — the trim eats the trailing
space of the `VALUE ` prefix. -/
theorem C5_counterexample_empty_value :
    clientRoundTrip (Response.Value "") = none
    ∧ (none : Option Response) ≠ some (Response.Value "") :=
  ⟨rfl, by decide⟩

/-- C5 amended: the serialize-then-parse round trip through the client
returns the original response for `Ok`, `NotFound`, and for `Value`/`Error`
whose payload contains no newline, is non-empty, and does not end in a
whitespace character (the client trims the line it reads, so payloads the
trim would alter cannot round-trip). -/
theorem C5_round_trip_trimmed (r : Response) (h : roundTrippable r) :
    clientRoundTrip r = some r :=
  clientRoundTrip_spec r h

theorem C5_witness :
    roundTrippable (Response.Value "x")
    ∧ clientRoundTrip (Response.Value "x") = some (Response.Value "x") := by
  have h : roundTrippable (Response.Value "x") := by
    refine ⟨by decide, by decide, ?_⟩
    intro c hc
    simp only [show "x".toList.getLast? = some 'x' from rfl, Option.some.injEq] at hc
    subst hc
    decide
  exact ⟨h, C5_round_trip_trimmed (Response.Value "x") h⟩

/-- C6 counterexample: the claim says the parser fails only for an unknown
verb, a missing separator or argument, or an empty key; `SET k v\n` has the
right verb, all separators and arguments, and a non-empty key, yet
`parse_command` rejects it. -/
theorem C6_counterexample_well_formed_rejected :
    parse_command "SET k v\n".toList = none
    ∧ (none : Option Command) ≠ some (Command.Set "k" "v") :=
  ⟨rfl, by decide⟩

/-- C6 amended: `parse_command` returns a command or a parse error; on
`\r\n`-framed lines it never rejects based on the content of a non-empty
tab-free key or of a value, and it fails for an unknown or lowercase verb,
a missing argument, an empty key, a missing terminator — and additionally
for a SET line that contains no `\r\n`. -/
theorem C6_parser_contract (k v : List Char)
    (hk : k ≠ []) (hkc : ∀ c ∈ k, c ≠ ' ' ∧ c ≠ '\r' ∧ c ≠ '\n')
    (hk0 : ∀ c, k.head? = some c → c ≠ '\t')
    (hv : containsCRLF v = false)
    (hv0 : ∀ c, v.head? = some c → isNomSpace c = false)
    (hv2 : containsCRLF (v ++ ['\n']) = false) :
    parse_command ('S' :: 'E' :: 'T' :: ' ' :: (k ++ ' ' :: (v ++ '\r' :: '\n' :: [])))
      = some (Command.Set k.asString v.asString)
    ∧ parse_command ('G' :: 'E' :: 'T' :: ' ' :: (k ++ '\r' :: '\n' :: []))
      = some (Command.Get k.asString)
    ∧ parse_command ('D' :: 'E' :: 'L' :: 'E' :: 'T' :: 'E' :: ' ' :: (k ++ '\r' :: '\n' :: []))
      = some (Command.Delete k.asString)
    ∧ parse_command "set k v\r\n".toList = none
    ∧ parse_command "PING k\r\n".toList = none
    ∧ parse_command "GET \r\n".toList = none
    ∧ parse_command "SET k\r\n".toList = none
    ∧ parse_command "GET k".toList = none
    ∧ parse_command ('S' :: 'E' :: 'T' :: ' ' :: (k ++ ' ' :: (v ++ ['\n']))) = none :=
  ⟨parse_command_set_crlf k v [] hk hkc hk0 hv hv0,
   parse_command_get_crlf k [] hk hkc hk0,
   parse_command_delete_crlf k [] hk hkc hk0,
   rfl, rfl, rfl, rfl, rfl,
   parse_command_set_lf_none k v hk hkc hk0 hv2 hv0⟩

theorem C6_witness :
    ((['a'] : List Char) ≠ []
      ∧ (∀ c ∈ (['a'] : List Char), c ≠ ' ' ∧ c ≠ '\r' ∧ c ≠ '\n')
      ∧ (∀ c, (['a'] : List Char).head? = some c → c ≠ '\t')
      ∧ containsCRLF ['1'] = false
      ∧ (∀ c, (['1'] : List Char).head? = some c → isNomSpace c = false)
      ∧ containsCRLF (['1'] ++ ['\n']) = false)
    ∧ parse_command "SET a 1\r\n".toList = some (Command.Set "a" "1")
    ∧ parse_command "GET a\r\n".toList = some (Command.Get "a")
    ∧ parse_command "set k v\r\n".toList = none
    ∧ parse_command "SET a 1\n".toList = none := by
  refine ⟨⟨by decide, by decide, by decide, by decide, by decide, by decide⟩, ?_, ?_, ?_, ?_⟩
  · exact (C6_parser_contract ['a'] ['1'] (by decide) (by decide) (by decide)
      (by decide) (by decide) (by decide)).1
  · exact (C6_parser_contract ['a'] ['1'] (by decide) (by decide) (by decide)
      (by decide) (by decide) (by decide)).2.1
  · exact (C6_parser_contract ['a'] ['1'] (by decide) (by decide) (by decide)
      (by decide) (by decide) (by decide)).2.2.2.1
  · exact (C6_parser_contract ['a'] ['1'] (by decide) (by decide) (by decide)
      (by decide) (by decide) (by decide)).2.2.2.2.2.2.2.2



/-- C7 counterexample: the claim says the serializer output never contains
an interior newline for any payload, but `Value "a\nb"` serializes with the
payload newline in the interior of the output. -/
theorem C7_counterexample_interior_newline :
    '\n' ∈ ((Response.Value "a\nb").to_bytes).dropLast := by decide

/-- C7 amended: `Response.to_bytes` is total and its output always ends with
`\r\n`; the output contains no interior newline provided the payload itself
contains no newline. -/
theorem C7_serializer_contract (r : Response) :
    (∃ p, r.to_bytes = p ++ ['\r', '\n'])
    ∧ (payloadNewlineFree r → '\n' ∉ r.to_bytes.dropLast) := by
  cases r with
  | Ok =>
    exact ⟨⟨['O', 'K'], rfl⟩, fun _ => by decide⟩
  | NotFound =>
    exact ⟨⟨"NOT_FOUND".toList, rfl⟩, fun _ => by decide⟩
  | Value v =>
    constructor
    · exact ⟨"VALUE ".toList ++ v.toList, rfl⟩
    · intro h hm
      have e : (Response.Value v).to_bytes
          = (("VALUE ".toList ++ v.toList) ++ ['\r']) ++ ['\n'] := by
        show ("VALUE ".toList ++ v.toList) ++ ['\r', '\n'] = _
        simp [List.append_assoc]
      rw [e, List.dropLast_concat] at hm
      simp only [List.mem_append, List.mem_singleton] at hm
      rcases hm with (hm | hm) | hm
      · exact absurd hm (by decide)
      · exact h hm
      · exact absurd hm (by decide)
  | Error m =>
    constructor
    · exact ⟨"ERROR ".toList ++ m.toList, rfl⟩
    · intro h hm
      have e : (Response.Error m).to_bytes
          = (("ERROR ".toList ++ m.toList) ++ ['\r']) ++ ['\n'] := by
        show ("ERROR ".toList ++ m.toList) ++ ['\r', '\n'] = _
        simp [List.append_assoc]
      rw [e, List.dropLast_concat] at hm
      simp only [List.mem_append, List.mem_singleton] at hm
      rcases hm with (hm | hm) | hm
      · exact absurd hm (by decide)
      · exact h hm
      · exact absurd hm (by decide)

theorem C7_witness :
    (∃ p, (Response.Value "x").to_bytes = p ++ ['\r', '\n'])
    ∧ '\n' ∉ ((Response.Value "x").to_bytes).dropLast :=
  ⟨(C7_serializer_contract (Response.Value "x")).1,
   (C7_serializer_contract (Response.Value "x")).2
     (by show '\n' ∉ "x".toList; decide)⟩

/-- C8: `delete` on the WAL-backed store appends a `Delete` entry to the WAL
unconditionally — the appended WAL is the same whether or not the key is
present — and returns `true` exactly when the key was present (which is then
removed), `false` when it was absent. -/
theorem C8_delete_logs_unconditionally (s : MemoryStore) (k : String) (ts : Nat) :
    (MemoryStore.delete true ts s k).2.wal
      = s.wal ++ [WalEntry.mk ts (Command.Delete k)]
    ∧ ((MemoryStore.delete true ts s k).1 = Except.ok true ↔ ∃ v, s.data k = some v)
    ∧ ((MemoryStore.delete true ts s k).1 = Except.ok false ↔ s.data k = none)
    ∧ (MemoryStore.delete true ts s k).2.data k = none := by
  have hred : (MemoryStore.delete true ts s k).1
      = Except.ok (s.data k).isSome := rfl
  refine ⟨rfl, ?_, ?_, ?_⟩
  · rw [hred]
    cases hE : s.data k with
    | none => simp [hE]
    | some v => simp [hE]
  · rw [hred]
    cases hE : s.data k with
    | none => simp [hE]
    | some v => simp [hE]
  · show ksRemove k s.data k = none
    rw [ksRemove, if_pos rfl]

/-- C9: `clear` empties the in-memory mapping while leaving the WAL
untouched; consequently a store built from acknowledged mutations and then
cleared still replays its WAL back to the pre-clear keyspace, not to the
empty keyspace left in memory. -/
theorem C9_clear_does_not_touch_wal (s : MemoryStore) (ms : List Mutation) :
    MemoryStore.clear s = MemoryStore.mk emptyKS s.wal
    ∧ restore_from_wal (fileOf (MemoryStore.clear (runMutations ms)).wal)
      = Except.ok (runMutations ms).data :=
  ⟨rfl, replay_runMutations ms⟩

/-- C10 counterexample: the claim says `parse_command` returns the command
of the first line, ignoring bytes past the terminator; on
`SET a b\nGET c\r\n`, whose first line is the well-formed `SET a b`
terminated by `\n`, the parser instead swallows the second line into the
value and returns `Set "a" "b\nGET c"`. -/
theorem C10_counterexample_value_swallows_next_line :
    parse_command "SET a b\nGET c\r\n".toList = some (Command.Set "a" "b\nGET c")
    ∧ Command.Set "a" "b\nGET c" ≠ Command.Set "a" "b" :=
  ⟨rfl, by decide⟩

/-- C10 amended: `parse_command` returns the command of the first line and
ignores all bytes after the terminator whenever the first line is terminated
by `\r\n` (any verb) or is a GET or DELETE line terminated by a bare `\n`;
for a SET line terminated by a bare `\n` the value instead extends to the
first `\r\n` of the whole input. -/
theorem C10_first_line_only (k v rest : List Char)
    (hk : k ≠ []) (hkc : ∀ c ∈ k, c ≠ ' ' ∧ c ≠ '\r' ∧ c ≠ '\n')
    (hk0 : ∀ c, k.head? = some c → c ≠ '\t')
    (hv : containsCRLF v = false)
    (hv0 : ∀ c, v.head? = some c → isNomSpace c = false) :
    parse_command ('S' :: 'E' :: 'T' :: ' ' :: (k ++ ' ' :: (v ++ '\r' :: '\n' :: rest)))
      = some (Command.Set k.asString v.asString)
    ∧ parse_command ('G' :: 'E' :: 'T' :: ' ' :: (k ++ '\r' :: '\n' :: rest))
      = some (Command.Get k.asString)
    ∧ parse_command ('G' :: 'E' :: 'T' :: ' ' :: (k ++ '\n' :: rest))
      = some (Command.Get k.asString)
    ∧ parse_command ('D' :: 'E' :: 'L' :: 'E' :: 'T' :: 'E' :: ' ' :: (k ++ '\r' :: '\n' :: rest))
      = some (Command.Delete k.asString)
    ∧ parse_command ('D' :: 'E' :: 'L' :: 'E' :: 'T' :: 'E' :: ' ' :: (k ++ '\n' :: rest))
      = some (Command.Delete k.asString) :=
  ⟨parse_command_set_crlf k v rest hk hkc hk0 hv hv0,
   parse_command_get_crlf k rest hk hkc hk0,
   parse_command_get_lf k rest hk hkc hk0,
   parse_command_delete_crlf k rest hk hkc hk0,
   parse_command_delete_lf k rest hk hkc hk0⟩

theorem C10_witness :
    ((['k'] : List Char) ≠ []
      ∧ (∀ c ∈ (['k'] : List Char), c ≠ ' ' ∧ c ≠ '\r' ∧ c ≠ '\n')
      ∧ (∀ c, (['k'] : List Char).head? = some c → c ≠ '\t')
      ∧ containsCRLF ['v'] = false
      ∧ (∀ c, (['v'] : List Char).head? = some c → isNomSpace c = false))
    ∧ parse_command "SET k v\r\nGET z\r\n".toList = some (Command.Set "k" "v")
    ∧ parse_command "GET k\nGARBAGE".toList = some (Command.Get "k") := by
  refine ⟨⟨by decide, by decide, by decide, by decide, by decide⟩, ?_, ?_⟩
  · exact (C10_first_line_only ['k'] ['v'] "GET z\r\n".toList (by decide) (by decide)
      (by decide) (by decide) (by decide)).1
  · exact (C10_first_line_only ['k'] ['v'] "GARBAGE".toList (by decide) (by decide)
      (by decide) (by decide) (by decide)).2.2.1


end RustVault
